import Mathlib

/-!
Shallow embedding of the sparse-page storage layer of `src/data/data.cc`
(xgboost): the `SparsePage` CSR page operations (`Push`, `PushCSC`,
`GetTranspose`), the `MetaInfo` binary (de)serialization and `SetInfo`,
and the distributed column-count reconciliation inside `DMatrix::Create`.

Modeling conventions:
* machine integers (`size_t`, `bst_row_t`, `uint64_t`) are `Nat`; the code
  performs no arithmetic that can overflow in the scenarios the claims
  quantify over, and `size_t` subtraction only occurs where the theorems
  carry monotonicity hypotheses making it exact;
* `bst_float` payloads are opaque scalars, modeled as `Int`: the code only
  copies them (the single literal `1.0f` becomes the scalar `1`);
* a fatal `CHECK`/`LOG(FATAL)` (which throws `dmlc::Error`) is an `Option`
  `none` or an `Except.error` carrying the data printed in the message;
* `std::vector` is `List`; `v.resize(n)` is `take n` plus padding with
  value-initialized elements; a sequence of `memcpy`s at consecutive
  positions of a freshly allocated vector is the concatenation of the
  copied segments (padded to the allocated size).
-/

/-- Entry of a sparse page: column index and (opaque) feature value,
mirroring `xgboost::Entry`. A value-initialized entry is `⟨0, 0⟩`. -/
structure Entry where
  index : Nat
  fvalue : Int
deriving DecidableEq, Repr

/-- Sparse page in CSR layout, mirroring `xgboost::SparsePage`:
`offset` has one element per row plus one, `data` is the flat entry
array, `base_rowid` is the page's first row index in the whole matrix. -/
structure SparsePage where
  offset : List Nat
  data : List Entry
  base_rowid : Nat
deriving DecidableEq, Repr

/-- Executable check that a list of offsets is monotonically
nondecreasing (used by the page invariant). -/
def leChain : List Nat → Bool
  | a :: b :: t => decide (a ≤ b) && leChain (b :: t)
  | _ => true

namespace SparsePage

/-- Number of rows, mirroring `SparsePage::Size() = offset.Size() - 1`. -/
def size (p : SparsePage) : Nat := p.offset.length - 1

/-- Row `i` of a page, mirroring `SparsePage::operator[]`, which returns
the slice of `data` starting at `offset[i]` of length
`offset[i+1] - offset[i]`. -/
def rowAt (p : SparsePage) (i : Nat) : List Entry :=
  (p.data.drop (p.offset.getD i 0)).take (p.offset.getD (i + 1) 0 - p.offset.getD i 0)

/-- All rows of a page in order, as read through `operator[]`. -/
def rowsOf (p : SparsePage) : List (List Entry) :=
  (List.range p.size).map p.rowAt

/-- Page invariant from the spec's data model: `offset[0] = 0`, `offset`
monotonically nondecreasing, and `offset.back() == data.size()`. -/
def wfPage (p : SparsePage) : Bool :=
  p.offset.head? == some 0 &&
  leChain p.offset &&
  p.offset.getLast? == some p.data.length

end SparsePage

/-- Prefix-sum offset array construction: `sumsFrom acc [l₀, l₁, ...]`
is `[acc, acc+l₀, acc+l₀+l₁, ...]`.  This is the loop pattern used both
by `ParallelGroupBuilder::InitStorage` (cumulative group sizes) and by
the offset-building loop of `SparsePage::PushCSC`
(`offset.at(ptr) = beg; ptr++` with `beg` accumulating lengths). -/
def sumsFrom (acc : Nat) : List Nat → List Nat
  | [] => [acc]
  | l :: ls => acc :: sumsFrom (acc + l) ls

/-- Running-sum append: `scanAdd prev [x₀, x₁, ...]` is
`[prev+x₀, prev+x₀+x₁, ...]`.  This is the
`push_back(back() + δᵢ)` loop pattern of `SparsePage::Push(RowBlock)`
and the in-place prefix-sum loop of `MetaInfo::SetInfo("group")`. -/
def scanAdd (prev : Nat) : List Nat → List Nat
  | [] => []
  | x :: xs => (prev + x) :: scanAdd (prev + x) xs

namespace SparsePage

/-- `SparsePage::Push(const SparsePage& batch)` (data.cc:399-414):
`top = offset.back()`; resize `data` to `top + batch.data.size()` and
copy `batch.data` in at position `top`; append
`top + batch.offset[i+1]` for `i = 0 .. batch.Size()-1` to `offset`
(those are exactly the elements of `batch.offset.drop 1`, shifted). -/
def push (p batch : SparsePage) : SparsePage :=
  let top := p.offset.getLast?.getD 0
  { p with
    data := p.data.take top
            ++ List.replicate (top - p.data.length) ⟨0, 0⟩
            ++ batch.data,
    offset := p.offset ++ (batch.offset.drop 1).map (fun v => top + v) }

/-- Model of `dmlc::RowBlock<uint32_t>`: `size` rows, `offset` of length
`size + 1` delimiting each row's index/value range, a flat `index`
array and an optional flat `value` array (a null `value` pointer means
an implicit value of `1.0` per entry). -/
structure RowBlock where
  size : Nat
  offset : List Nat
  index : List Nat
  value : Option (List Int)
deriving DecidableEq, Repr

/-- Value of entry `i` of a row block: `value == nullptr ? 1.0f : value[i]`. -/
def RowBlock.valueAt (rb : RowBlock) (i : Nat) : Int :=
  match rb.value with
  | none => 1
  | some vs => vs.getD i 0

/-- Well-formedness of a row block as produced by the dmlc parser:
the offset array has `size + 1` monotonically nondecreasing entries
within the bounds of the index array. -/
def RowBlock.wf (rb : RowBlock) : Bool :=
  rb.offset.length == rb.size + 1 &&
  leChain rb.offset &&
  rb.offset.getLast?.getD 0 ≤ rb.index.length

/-- `SparsePage::Push(const dmlc::RowBlock<uint32_t>& batch)`
(data.cc:416-431): per row push `offset.back() + (off[i+1] - off[i])`;
then append entries `index[i]`/`value[i]` for
`i = off[0] .. off[size]-1`; the trailing
`CHECK_EQ(offset_vec.back(), data.Size())` is modeled as the `Option`
guard. -/
def pushRowBlock (p : SparsePage) (rb : RowBlock) : Option SparsePage :=
  let diffs := (List.range rb.size).map
    (fun i => rb.offset.getD (i + 1) 0 - rb.offset.getD i 0)
  let newOffset := p.offset ++ scanAdd (p.offset.getLast?.getD 0) diffs
  let lo := rb.offset.getD 0 0
  let hi := rb.offset.getD rb.size 0
  let newData := p.data ++ (List.range (hi - lo)).map
    (fun j => Entry.mk (rb.index.getD (lo + j) 0) (rb.valueAt (lo + j)))
  if newOffset.getLast?.getD 0 == newData.length then
    some { p with offset := newOffset, data := newData }
  else
    none

/-- Combined per-column segment lengths used by the `PushCSC` merge loop
(data.cc:462-486): for each feature `i`,
`(self_offset.at(i+1) - self_offset.at(i)) + (other_offset.at(i+1) - other_offset.at(i))`. -/
def cscLens (self other : SparsePage) : List Nat :=
  (List.range (other.offset.length - 1)).map
    (fun i => (self.offset.getD (i + 1) 0 - self.offset.getD i 0)
            + (other.offset.getD (i + 1) 0 - other.offset.getD i 0))

/-- Merge branch of `SparsePage::PushCSC` (data.cc:453-489): a fresh
data vector of size `self.data.size() + other.data.size()` is filled by
consecutive `memcpy`s of self's column `i` then other's column `i`; the
fresh offset vector records the running write position `beg` (which
advances by the offset differences).  The concatenation of the copied
segments is padded to the allocated size (value-initialized entries);
under the page invariant the padding is empty. -/
def mergeCSC (self other : SparsePage) : SparsePage :=
  let total := self.data.length + other.data.length
  let seg := ((List.range (other.offset.length - 1)).map
    (fun i => self.rowAt i ++ other.rowAt i)).flatten
  { self with
    data := seg.take total ++ List.replicate (total - seg.length) ⟨0, 0⟩,
    offset := sumsFrom 0 (cscLens self other) }

/-- `SparsePage::PushCSC(const SparsePage& batch)` (data.cc:433-490):
if the batch's data is empty, return immediately; else if self's data is
nonempty, `CHECK_EQ(self_offset.size(), other_offset.size())` (fatal on
mismatch, modeled as `none`) and merge column by column; else copy the
batch's data and offset vectors into self (leaving `base_rowid` as is). -/
def pushCSC (self other : SparsePage) : Option SparsePage :=
  if other.data.isEmpty then
    some self
  else if !self.data.isEmpty then
    if self.offset.length == other.offset.length then
      some (mergeCSC self other)
    else
      none
  else
    some { self with data := other.data, offset := other.offset }

/-- Buckets built by the two passes of `SparsePage::GetTranspose`
(data.cc:370-398) through `ParallelGroupBuilder`, modeled with a single
thread (`nthread = 1`, `tid = 0`): pass one (`AddBudget(entry.index)`)
counts, per column `c < num_columns`, the entries of each row whose
index is `c`; pass two pushes, in the same row-major order,
`Entry(base_rowid + i, entry.fvalue)` into column `c`'s bucket. -/
def transposeBuckets (p : SparsePage) (numColumns : Nat) : List (List Entry) :=
  (List.range numColumns).map (fun c =>
    (rowsOf p).enum.flatMap (fun pr =>
      (pr.2.filter (fun e => e.index == c)).map
        (fun e => Entry.mk (p.base_rowid + pr.1) e.fvalue)))

/-- `SparsePage::GetTranspose(int num_columns)` (data.cc:370-398): the
builder's `InitStorage` lays the buckets out consecutively (offset =
cumulative bucket sizes), and the result is a fresh page with
`base_rowid = 0`. -/
def getTranspose (p : SparsePage) (numColumns : Nat) : SparsePage :=
  let buckets := transposeBuckets p numColumns
  { offset := sumsFrom 0 (buckets.map List.length),
    data := buckets.flatten,
    base_rowid := 0 }

/-- The (row, column, value) triples represented by a list of rows whose
first row has absolute row id `base`. -/
def triplesOfRows (base : Nat) (rows : List (List Entry)) : List (Nat × Nat × Int) :=
  rows.enum.flatMap (fun pr =>
    pr.2.map (fun e => (base + pr.1, e.index, e.fvalue)))

/-- The (row, column, value) triples represented by a row-keyed page,
each row's absolute id being `base_rowid` plus its offset in the page. -/
def triples (p : SparsePage) : List (Nat × Nat × Int) :=
  triplesOfRows p.base_rowid (rowsOf p)

end SparsePage

/-- Dataset metadata, mirroring `xgboost::MetaInfo`: row/column/nonzero
counts and the four arrays written by `SaveBinary`. -/
structure MetaInfo where
  num_row_ : Nat
  num_col_ : Nat
  num_nonzero_ : Nat
  labels_ : List Int
  group_ptr_ : List Nat
  weights_ : List Int
  base_margin_ : List Int
deriving DecidableEq, Repr

/-- One record of the `dmlc::Stream` binary layout used by
`MetaInfo::SaveBinary`/`LoadBinary`: the version tag written by
`Version::Save`, a fixed-width integer field, a length-prefixed integer
array, or a length-prefixed float array.  A short or ill-typed read is a
failed pattern match on the head record. -/
inductive BinItem where
  | ver (major minor patch : Nat)
  | natVal (v : Nat)
  | natArr (l : List Nat)
  | fltArr (l : List Int)
deriving DecidableEq, Repr

/-- Failure modes of `MetaInfo::LoadBinary`: unsupported major version
(the `CHECK_EQ(major, 1)`), or a short read (a failed
`CHECK(fi->Read(...))`). -/
inductive LoadErr where
  | badMajor (major : Nat)
  | shortRead
deriving DecidableEq, Repr

namespace MetaInfo

/-- `MetaInfo::SaveBinary` (data.cc:42-51): version tag, then
`num_row_`, `num_col_`, `num_nonzero_` as fixed-width integers, then
the four arrays `labels_`, `group_ptr_`, `weights_`, `base_margin_`,
in that fixed order.  `Version::Save` writes the current version,
whose major component is 1 (the value `LoadBinary` checks for). -/
def saveBinary (m : MetaInfo) : List BinItem :=
  [ .ver 1 0 0,
    .natVal m.num_row_,
    .natVal m.num_col_,
    .natVal m.num_nonzero_,
    .fltArr m.labels_,
    .natArr m.group_ptr_,
    .fltArr m.weights_,
    .fltArr m.base_margin_ ]

/-- `MetaInfo::LoadBinary` (data.cc:53-71): read the version record and
fail if its major component is not 1; then read each field in layout
order directly into the instance, failing on any short read.  The
returned `MetaInfo` is the state of the instance when the function
stops, so a failure partway leaves the fields read so far populated
(exactly as the C++ code reads into `&num_row_` etc. before each
`CHECK`). -/
def loadBinary (m0 : MetaInfo) (s : List BinItem) : MetaInfo × Option LoadErr :=
  match s with
  | .ver maj _ _ :: r1 =>
    if maj = 1 then
      match r1 with
      | .natVal nr :: r2 =>
        let m1 := { m0 with num_row_ := nr }
        match r2 with
        | .natVal nc :: r3 =>
          let m2 := { m1 with num_col_ := nc }
          match r3 with
          | .natVal nnz :: r4 =>
            let m3 := { m2 with num_nonzero_ := nnz }
            match r4 with
            | .fltArr lab :: r5 =>
              let m4 := { m3 with labels_ := lab }
              match r5 with
              | .natArr gp :: r6 =>
                let m5 := { m4 with group_ptr_ := gp }
                match r6 with
                | .fltArr w :: r7 =>
                  let m6 := { m5 with weights_ := w }
                  match r7 with
                  | .fltArr bm :: _ => ({ m6 with base_margin_ := bm }, none)
                  | _ => (m6, some .shortRead)
                | _ => (m5, some .shortRead)
              | _ => (m4, some .shortRead)
            | _ => (m3, some .shortRead)
          | _ => (m2, some .shortRead)
        | _ => (m1, some .shortRead)
      | _ => (m0, some .shortRead)
    else
      (m0, some (.badMajor maj))
  | _ => (m0, some .shortRead)

/-- Streams accepted by `loadBinary`: a version record with major 1
followed by the three integer fields and the four arrays in layout
order (trailing records are ignored, as the C++ reader only consumes a
prefix of the stream). -/
def goodStream : List BinItem → Bool
  | .ver 1 _ _ :: .natVal _ :: .natVal _ :: .natVal _ :: .fltArr _ ::
      .natArr _ :: .fltArr _ :: .fltArr _ :: _ => true
  | _ => false

/-- Branch of `MetaInfo::SetInfo` for key "group" (data.cc:136-143):
resize `group_ptr_` to `num + 1`, copy the per-group sizes to positions
1..num, set position 0 to 0, then accumulate in place
(`group_ptr_[i] = group_ptr_[i-1] + group_ptr_[i]`).  The type-erased
numeric buffer (`DISPATCH_CONST_PTR` over the four supported element
types) is modeled as the list of per-group sizes after conversion. -/
def setInfoGroup (m : MetaInfo) (sizes : List Nat) : MetaInfo :=
  { m with group_ptr_ := 0 :: scanAdd 0 sizes }

end MetaInfo

/-- Data carried by the fatal consistency error of the column-count
validation loop in `DMatrix::Create` (data.cc:335-341): the disagreeing
rank `i`, the rank `max_ind` holding the maximum, and the two counts
printed in the message. -/
structure ColsErr where
  rank : Nat
  maxRank : Nat
  cols : Nat
  maxCols : Nat
deriving DecidableEq, Repr

/-- Maximum of the reported per-rank column counts
(`std::max_element` over the all-reduced vector; world size ≥ 1). -/
def listMax (l : List Nat) : Nat := l.foldl max 0

/-- Validation loop of `DMatrix::Create` (data.cc:335-341): find the
first rank `i` with `ncols[i] != 0 && ncols[i] != *max_cols`, returning
its index and value. -/
def firstBad (m : Nat) : List Nat → Option (Nat × Nat)
  | [] => none
  | v :: rest =>
    if v != 0 && v != m then some (0, v)
    else (firstBad m rest).map (fun pr => (pr.1 + 1, pr.2))

/-- Distributed part of `DMatrix::Create(source, cache_prefix)` with an
empty cache prefix (data.cc:314-343), seen from one worker: `reports`
is the all-reduced vector `ncols` (entry `r` being rank `r`'s
`info.num_col_`), `rank` this worker's rank, and `numRow` this worker's
`info.num_row_`.  The worker adopts the global maximum when both its
column and row counts are zero, then every worker runs the same
validation loop; on success the result is this worker's resolved
`num_col_`. -/
def createNumCol (reports : List Nat) (rank numRow : Nat) : Except ColsErr Nat :=
  let maxCols := listMax reports
  let own := reports.getD rank 0
  let resolved := if own == 0 && numRow == 0 then maxCols else own
  match firstBad maxCols reports with
  | some (i, v) =>
    .error { rank := i, maxRank := reports.findIdx (fun x => x == maxCols),
             cols := v, maxCols := maxCols }
  | none => .ok resolved

/-- Transposition on (row, column, value) triples: swap the row and
column coordinates. -/
def swap3 (t : Nat × Nat × Int) : Nat × Nat × Int := (t.2.1, t.1, t.2.2)

/-! Helper lemmas about the prefix-sum constructions. -/

theorem sumsFrom_eq_cons_scanAdd (ds : List Nat) (acc : Nat) :
    sumsFrom acc ds = acc :: scanAdd acc ds := by
  induction ds generalizing acc with
  | nil => rfl
  | cons d t ih => simp [sumsFrom, scanAdd, ih]

theorem length_scanAdd (ds : List Nat) (acc : Nat) :
    (scanAdd acc ds).length = ds.length := by
  induction ds generalizing acc with
  | nil => rfl
  | cons d t ih => simp [scanAdd, ih]

theorem chain'_cons_scanAdd (ds : List Nat) (acc : Nat) :
    List.Chain' (· ≤ ·) (acc :: scanAdd acc ds) := by
  induction ds generalizing acc with
  | nil => simp [scanAdd]
  | cons d t ih =>
    rw [scanAdd, List.chain'_cons]
    exact ⟨Nat.le_add_right acc d, ih (acc + d)⟩

theorem head?_scanAdd_ge (ds : List Nat) (acc : Nat) :
    ∀ y ∈ (scanAdd acc ds).head?, acc ≤ y := by
  cases ds with
  | nil => simp [scanAdd]
  | cons d t => simp [scanAdd]

theorem getLast?_append_scanAdd (ds : List Nat) (l : List Nat) (acc : Nat)
    (h : l.getLast? = some acc) :
    (l ++ scanAdd acc ds).getLast? = some (acc + ds.sum) := by
  induction ds generalizing l acc with
  | nil => simpa [scanAdd] using h
  | cons d t ih =>
    rw [scanAdd, show l ++ (acc + d) :: scanAdd (acc + d) t
          = (l ++ [acc + d]) ++ scanAdd (acc + d) t by simp]
    rw [ih (l ++ [acc + d]) (acc + d) (by simp)]
    simp [Nat.add_assoc]

theorem getLast?_cons_scanAdd (ds : List Nat) (acc : Nat) :
    (acc :: scanAdd acc ds).getLast? = some (acc + ds.sum) := by
  simpa using getLast?_append_scanAdd ds [acc] acc rfl

theorem chain'_append_scanAdd (ds : List Nat) (l : List Nat) (acc : Nat)
    (hc : List.Chain' (· ≤ ·) l) (h : l.getLast? = some acc) :
    List.Chain' (· ≤ ·) (l ++ scanAdd acc ds) := by
  rw [List.chain'_append]
  refine ⟨hc, (chain'_cons_scanAdd ds acc).tail, ?_⟩
  intro x hx y hy
  rw [h, Option.mem_some_iff] at hx
  subst hx
  exact head?_scanAdd_ge ds acc y hy

theorem getD_sumsFrom (ds : List Nat) (acc i : Nat) (h : i ≤ ds.length) :
    (sumsFrom acc ds).getD i 0 = acc + ((ds.take i).sum) := by
  induction ds generalizing acc i with
  | nil =>
    have hi : i = 0 := Nat.le_zero.mp h
    subst hi
    simp [sumsFrom]
  | cons d t ih =>
    cases i with
    | zero => simp [sumsFrom]
    | succ j =>
      rw [sumsFrom]
      simp only [List.getD_cons_succ, List.take_succ_cons, List.sum_cons]
      rw [ih (acc + d) j (by simpa using h)]
      omega

theorem scanAdd_eq_map (ds : List Nat) (acc : Nat) :
    scanAdd acc ds
      = (List.range ds.length).map (fun i => acc + ((ds.take (i + 1)).sum)) := by
  induction ds generalizing acc with
  | nil => rfl
  | cons d t ih =>
    rw [scanAdd, ih (acc + d)]
    simp only [List.length_cons, List.range_succ_eq_map, List.map_cons, List.map_map]
    refine List.cons_eq_cons.mpr ⟨by simp, ?_⟩
    apply List.map_congr_left
    intro i _
    simp only [Function.comp, List.take_succ_cons, List.sum_cons]
    omega

/-! Helper lemmas about monotone offset arrays. -/

theorem getD_mono {o : List Nat} (hc : List.Chain' (· ≤ ·) o)
    {i j : Nat} (hij : i ≤ j) (hj : j < o.length) :
    o.getD i 0 ≤ o.getD j 0 := by
  rcases Nat.eq_or_lt_of_le hij with rfl | hlt
  · exact Nat.le_refl _
  · have hp := List.chain'_iff_pairwise.mp hc
    have := List.pairwise_iff_get.mp hp ⟨i, Nat.lt_trans hlt hj⟩ ⟨j, hj⟩ hlt
    simpa [List.getD_eq_getElem?_getD,
      List.getElem?_eq_getElem (Nat.lt_trans hlt hj),
      List.getElem?_eq_getElem hj, List.get_eq_getElem] using this

theorem getD_head {o : List Nat} {h : Nat} (hh : o.head? = some h) :
    o.getD 0 0 = h := by
  cases o with
  | nil => simp at hh
  | cons a t => simp at hh; simpa using hh

theorem getD_getLast {o : List Nat} {L : Nat} (hl : o.getLast? = some L) :
    o.getD (o.length - 1) 0 = L := by
  rw [List.getLast?_eq_getElem?] at hl
  simp [List.getD_eq_getElem?_getD, hl]

theorem rangeDiffsSum (a : Nat) (t : List Nat)
    (hc : List.Chain' (· ≤ ·) (a :: t)) :
    ((List.range t.length).map
        (fun i => (a :: t).getD (i + 1) 0 - (a :: t).getD i 0)).sum
      + a = (a :: t).getLast?.getD 0 := by
  induction t generalizing a with
  | nil => simp
  | cons b u ih =>
    have hab : a ≤ b := (List.chain'_cons.mp hc).1
    have hcb : List.Chain' (· ≤ ·) (b :: u) := (List.chain'_cons.mp hc).2
    have ihs := ih b hcb
    rw [List.length_cons, List.range_succ_eq_map, List.map_cons, List.map_map]
    have hmap : (List.range u.length).map
          ((fun i => (a :: b :: u).getD (i + 1) 0 - (a :: b :: u).getD i 0)
            ∘ Nat.succ)
        = (List.range u.length).map
          (fun i => (b :: u).getD (i + 1) 0 - (b :: u).getD i 0) := by
      apply List.map_congr_left
      intro i _
      simp [Function.comp]
    rw [hmap]
    simp only [List.sum_cons, List.getD_cons_succ, List.getD_cons_zero,
      List.getLast?_cons_cons] at ihs ⊢
    omega

theorem sum_map_add_split {ι : Type} (l : List ι) (f g : ι → Nat) :
    (l.map (fun i => f i + g i)).sum = (l.map f).sum + (l.map g).sum := by
  induction l with
  | nil => rfl
  | cons a t ih => simp [ih]; omega

namespace SparsePage

theorem rowAt_length (p : SparsePage) (hc : List.Chain' (· ≤ ·) p.offset)
    (hl : p.offset.getLast? = some p.data.length)
    (i : Nat) (hi : i + 1 < p.offset.length) :
    (p.rowAt i).length = p.offset.getD (i + 1) 0 - p.offset.getD i 0 := by
  have h1 : p.offset.getD i 0 ≤ p.offset.getD (i + 1) 0 :=
    getD_mono hc (Nat.le_succ i) hi
  have h2 : p.offset.getD (i + 1) 0 ≤ p.offset.getD (p.offset.length - 1) 0 :=
    getD_mono hc (by omega) (by omega)
  rw [getD_getLast hl] at h2
  simp only [rowAt, List.length_take, List.length_drop]
  omega

end SparsePage

theorem drop_flatten_sumTake {α : Type} (L : List (List α)) (i : Nat) :
    L.flatten.drop (((L.map List.length).take i).sum) = (L.drop i).flatten := by
  induction i generalizing L with
  | zero => simp
  | succ j ih =>
    cases L with
    | nil => simp
    | cons l t =>
      simp only [List.map_cons, List.take_succ_cons, List.sum_cons,
        List.flatten_cons, List.drop_succ_cons]
      rw [List.drop_append]
      exact ih t

theorem map_range_eq {α : Type} (L : List α) (d : α) (f : Nat → α)
    (h : ∀ i, i < L.length → f i = L.getD i d) :
    (List.range L.length).map f = L := by
  apply List.ext_getElem?
  intro n
  rw [List.getElem?_map]
  by_cases hn : n < L.length
  · rw [List.getElem?_range hn, Option.map_some', h n hn,
      List.getD_eq_getElem?_getD, List.getElem?_eq_getElem hn]
    simp
  · rw [List.getElem?_eq_none (by simpa using Nat.le_of_not_lt hn),
      List.getElem?_eq_none (Nat.le_of_not_lt hn)]
    simp

theorem rowsOf_mk (L : List (List Entry)) (b : Nat) :
    SparsePage.rowsOf ⟨sumsFrom 0 (L.map List.length), L.flatten, b⟩ = L := by
  have hsize : (SparsePage.mk (sumsFrom 0 (L.map List.length)) L.flatten b).size
      = L.length := by
    simp [SparsePage.size, sumsFrom_eq_cons_scanAdd, length_scanAdd]
  rw [SparsePage.rowsOf, hsize]
  apply map_range_eq L [] _
  intro i hi
  have hlen : (L.map List.length).length = L.length := List.length_map _ _
  have hoi : (sumsFrom 0 (L.map List.length)).getD i 0
      = ((L.map List.length).take i).sum := by
    rw [getD_sumsFrom _ _ _ (by omega)]; omega
  have hoi1 : (sumsFrom 0 (L.map List.length)).getD (i + 1) 0
      = ((L.map List.length).take (i + 1)).sum := by
    rw [getD_sumsFrom _ _ _ (by omega)]; omega
  have hstep : ((L.map List.length).take (i + 1)).sum
      = ((L.map List.length).take i).sum + L[i].length := by
    rw [List.sum_take_succ _ _ (by omega)]
    congr 1
    exact List.getElem_map _
  rw [SparsePage.rowAt]
  simp only [hoi, hoi1, hstep, Nat.add_sub_cancel_left]
  rw [drop_flatten_sumTake, List.drop_eq_getElem_cons hi, List.flatten_cons,
    List.take_left]
  rw [List.getD_eq_getElem?_getD, List.getElem?_eq_getElem hi]
  simp

/-! Helper lemmas about enumeration and permutation by key. -/

theorem enumFrom_map_range' (n : Nat) :
    ∀ (s : Nat) (f : Nat → List Entry),
      List.enumFrom s ((List.range' s n).map f)
        = (List.range' s n).map (fun c => (c, f c)) := by
  induction n with
  | zero => intro s f; rfl
  | succ m ih =>
    intro s f
    rw [List.range'_succ, List.map_cons, List.enumFrom_cons, List.map_cons,
      ih (s + 1) f]

theorem enum_map_range (n : Nat) (f : Nat → List Entry) :
    ((List.range n).map f).enum = (List.range n).map (fun c => (c, f c)) := by
  rw [List.enum, List.range_eq_range']
  exact enumFrom_map_range' n 0 f

theorem sum_map_range_ite (n k m : Nat) :
    ((List.range n).map (fun c => if k = c then m else 0)).sum
      = if k < n then m else 0 := by
  induction n with
  | zero => simp
  | succ j ih =>
    rw [List.range_succ, List.map_append, List.sum_append, ih]
    by_cases h1 : k < j
    · simp [h1, Nat.lt_succ_of_lt h1, Nat.ne_of_lt h1]
    · by_cases h2 : k = j
      · subst h2
        simp [h1, Nat.lt_succ_self]
      · have : ¬ k < j + 1 := by omega
        simp [h1, h2, this]

theorem count_filter_key {α : Type} [DecidableEq α] (key : α → Nat)
    (l : List α) (c : Nat) (x : α) :
    List.count x (l.filter (fun a => key a == c))
      = if key x = c then List.count x l else 0 := by
  by_cases h : key x = c
  · rw [if_pos h]
    exact List.count_filter (by simpa using h)
  · rw [if_neg h]
    apply List.count_eq_zero_of_not_mem
    intro hmem
    exact h (by simpa using (List.mem_filter.mp hmem).2)

theorem flatMap_filter_perm {α : Type} [DecidableEq α] (key : α → Nat)
    (l : List α) (n : Nat) (h : ∀ a ∈ l, key a < n) :
    ((List.range n).flatMap (fun c => l.filter (fun a => key a == c))).Perm l := by
  rw [List.perm_iff_count]
  intro x
  rw [List.count_flatMap]
  have hmap : (List.range n).map
        (List.count x ∘ fun c => l.filter (fun a => key a == c))
      = (List.range n).map (fun c => if key x = c then List.count x l else 0) := by
    apply List.map_congr_left
    intro c _
    exact count_filter_key key l c x
  rw [hmap, sum_map_range_ite]
  by_cases hx : x ∈ l
  · simp [h x hx]
  · simp [List.count_eq_zero_of_not_mem hx]

/-! Triples of a transposed page. -/

theorem triples_getTranspose_eq (Q : SparsePage) (n : Nat) :
    SparsePage.triples (Q.getTranspose n)
      = (List.range n).flatMap
          (fun c => ((SparsePage.triples Q).map swap3).filter
            (fun t => t.1 == c)) := by
  have hrows : SparsePage.rowsOf (Q.getTranspose n)
      = SparsePage.transposeBuckets Q n := by
    simp only [SparsePage.getTranspose]
    exact rowsOf_mk (SparsePage.transposeBuckets Q n) 0
  have hbase : (Q.getTranspose n).base_rowid = 0 := by
    simp [SparsePage.getTranspose]
  rw [SparsePage.triples, hrows, hbase, SparsePage.transposeBuckets,
    SparsePage.triplesOfRows, enum_map_range, List.flatMap_map]
  apply List.flatMap_congr
  intro c _
  rw [List.map_flatMap]
  rw [show SparsePage.triples Q
      = (SparsePage.rowsOf Q).enum.flatMap
          (fun pr => pr.2.map
            (fun e => (Q.base_rowid + pr.1, e.index, e.fvalue))) from rfl]
  rw [List.map_flatMap, List.filter_flatMap]
  apply List.flatMap_congr
  intro pr _
  rw [List.map_map, List.map_map, List.filter_map]
  apply List.map_congr_left
  intro e he
  have : e.index = c := by simpa using (List.mem_filter.mp he).2
  simp [Function.comp, this, swap3]

namespace SparsePage

theorem mem_rowAt_mem_data {p : SparsePage} {e : Entry} {i : Nat}
    (h : e ∈ p.rowAt i) : e ∈ p.data := by
  rw [rowAt] at h
  exact List.mem_of_mem_drop (List.mem_of_mem_take h)

theorem mem_enum_fst_lt_snd_mem {α : Type} {pr : Nat × α} {l : List α}
    (h : pr ∈ l.enum) : pr.1 < l.length ∧ pr.2 ∈ l := by
  have := List.mem_enum_iff_getElem?.mp h
  rcases List.getElem?_eq_some.mp this with ⟨hlt, hget⟩
  exact ⟨hlt, hget ▸ List.getElem_mem hlt⟩

theorem mem_triples_map_swap3 {Q : SparsePage} {t : Nat × Nat × Int}
    (h : t ∈ (Q.triples).map swap3) : ∃ e ∈ Q.data, t.1 = e.index := by
  rcases List.mem_map.mp h with ⟨u, hu, rfl⟩
  rcases List.mem_flatMap.mp hu with ⟨pr, hpr, humem⟩
  rcases List.mem_map.mp humem with ⟨e, he, rfl⟩
  have h2 := (mem_enum_fst_lt_snd_mem hpr).2
  rcases List.mem_map.mp h2 with ⟨i, _, hrow⟩
  exact ⟨e, mem_rowAt_mem_data (hrow ▸ he), rfl⟩

theorem mem_getTranspose_data_index_lt {Q : SparsePage} {m : Nat} {e : Entry}
    (h : e ∈ (Q.getTranspose m).data) : e.index < Q.base_rowid + Q.size := by
  simp only [getTranspose] at h
  rcases List.mem_flatten.mp h with ⟨bucket, hb, hmem⟩
  rcases List.mem_map.mp hb with ⟨c, _, rfl⟩
  rcases List.mem_flatMap.mp hmem with ⟨pr, hpr, hemem⟩
  rcases List.mem_map.mp hemem with ⟨e0, _, rfl⟩
  have h1 := (mem_enum_fst_lt_snd_mem hpr).1
  rw [rowsOf, List.length_map, List.length_range] at h1
  simpa using h1

theorem triples_transpose_perm (Q : SparsePage) (n : Nat)
    (h : ∀ e ∈ Q.data, e.index < n) :
    (SparsePage.triples (Q.getTranspose n)).Perm ((Q.triples).map swap3) := by
  rw [triples_getTranspose_eq]
  exact flatMap_filter_perm (fun t : Nat × Nat × Int => t.1) _ n
    (fun t ht => by rcases mem_triples_map_swap3 ht with ⟨e, he, hix⟩
                    show t.1 < n
                    rw [hix]
                    exact h e he)

end SparsePage

theorem map_swap3_swap3 (l : List (Nat × Nat × Int)) :
    (l.map swap3).map swap3 = l := by
  rw [List.map_map]
  have : swap3 ∘ swap3 = id := by
    funext t
    rcases t with ⟨a, b, v⟩
    rfl
  rw [this, List.map_id]

/-! Invariant preservation helpers. -/

theorem leChain_iff (l : List Nat) :
    leChain l = true ↔ List.Chain' (· ≤ ·) l := by
  induction l with
  | nil => simp [leChain]
  | cons a t ih =>
    cases t with
    | nil => simp [leChain]
    | cons b u =>
      rw [leChain, List.chain'_cons, ← ih]
      simp

namespace SparsePage

theorem wfPage_iff {p : SparsePage} :
    wfPage p = true ↔
      p.offset.head? = some 0 ∧ List.Chain' (· ≤ ·) p.offset ∧
        p.offset.getLast? = some p.data.length := by
  simp [wfPage, and_assoc, leChain_iff]

theorem push_data_eq {P : SparsePage} (Q : SparsePage)
    (hl : P.offset.getLast? = some P.data.length) :
    (P.push Q).data = P.data ++ Q.data := by
  simp [push, hl]

theorem push_offset_eq {P : SparsePage} (Q : SparsePage)
    (hl : P.offset.getLast? = some P.data.length) :
    (P.push Q).offset
      = P.offset ++ (Q.offset.drop 1).map (fun v => P.data.length + v) := by
  simp [push, hl]

theorem wf_push {P Q : SparsePage} (hP : wfPage P = true)
    (hQ : wfPage Q = true) : wfPage (P.push Q) = true := by
  rcases wfPage_iff.mp hP with ⟨hh, hcP, hlP⟩
  rcases wfPage_iff.mp hQ with ⟨hhQ, hcQ, hlQ⟩
  apply wfPage_iff.mpr
  rw [push_data_eq Q hlP, push_offset_eq Q hlP]
  refine ⟨?_, ?_, ?_⟩
  · rw [List.head?_append, hh]
    rfl
  · rw [List.chain'_append]
    refine ⟨hcP, ?_, ?_⟩
    · rw [List.drop_one, List.chain'_map]
      exact List.Chain'.imp (fun a b hab => Nat.add_le_add_left hab _) hcQ.tail
    · intro x hx y hy
      rw [hlP, Option.mem_some_iff] at hx
      subst hx
      rw [List.head?_map, Option.mem_def, Option.map_eq_some'] at hy
      obtain ⟨v, _, rfl⟩ := hy
      exact Nat.le_add_right _ _
  · cases hQo : Q.offset with
    | nil =>
      rw [hQo] at hhQ
      simp at hhQ
    | cons x t =>
      cases t with
      | nil =>
        rw [hQo] at hhQ hlQ
        simp at hhQ hlQ
        subst hhQ
        have hQd : Q.data = [] := List.length_eq_zero.mp hlQ.symm
        simp [hQd, hlP]
      | cons y u =>
        rw [hQo] at hlQ
        rw [List.drop_one, List.tail_cons, List.getLast?_append,
          List.getLast?_map, ← List.getLast?_cons_cons (a := x), hlQ]
        simp
end SparsePage

theorem offsetDiffsSum {o : List Nat} {L : Nat} (hh : o.head? = some 0)
    (hc : List.Chain' (· ≤ ·) o) (hl : o.getLast? = some L) :
    ((List.range (o.length - 1)).map
        (fun i => o.getD (i + 1) 0 - o.getD i 0)).sum = L := by
  cases o with
  | nil => simp at hh
  | cons a t =>
    have ha : a = 0 := by simpa using hh
    subst ha
    have hsum := rangeDiffsSum 0 t hc
    rw [hl] at hsum
    simpa using hsum

theorem getD_length_sub_one (a : Nat) (t : List Nat) :
    (a :: t).getD t.length 0 = (a :: t).getLast?.getD 0 := by
  rw [List.getD_eq_getElem?_getD, List.getLast?_eq_getElem?]
  simp

namespace SparsePage

theorem wf_pushRowBlock {p : SparsePage} {rb : RowBlock}
    (hp : wfPage p = true) (hrb : rb.wf = true) :
    ∃ r, pushRowBlock p rb = some r ∧ wfPage r = true := by
  rcases wfPage_iff.mp hp with ⟨hh, hc, hl⟩
  have hrb2 := hrb
  rw [RowBlock.wf] at hrb2
  simp only [Bool.and_eq_true, beq_iff_eq, decide_eq_true_eq, leChain_iff] at hrb2
  obtain ⟨⟨hlen, hcrb⟩, _⟩ := hrb2
  have htop : p.offset.getLast?.getD 0 = p.data.length := by rw [hl]; rfl
  simp only [pushRowBlock]
  set D := (List.range rb.size).map
    (fun i => rb.offset.getD (i + 1) 0 - rb.offset.getD i 0) with hD
  set NO := p.offset ++ scanAdd (p.offset.getLast?.getD 0) D with hNO
  set ND := p.data ++ (List.range (rb.offset.getD rb.size 0 - rb.offset.getD 0 0)).map
    (fun j => Entry.mk (rb.index.getD (rb.offset.getD 0 0 + j) 0)
      (rb.valueAt (rb.offset.getD 0 0 + j))) with hND
  have hmono0 : rb.offset.getD 0 0 ≤ rb.offset.getD rb.size 0 :=
    getD_mono hcrb (Nat.zero_le _) (by omega)
  have hsum : D.sum + rb.offset.getD 0 0 = rb.offset.getD rb.size 0 := by
    cases ho : rb.offset with
    | nil =>
      rw [ho] at hlen
      simp at hlen
    | cons a t =>
      have ht : t.length = rb.size := by
        rw [ho] at hlen
        simpa using hlen
      have hiv := rangeDiffsSum a t (ho ▸ hcrb)
      rw [hD, ho, ← ht]
      simp only [List.getD_cons_zero]
      rw [getD_length_sub_one a t]
      exact hiv
  have hback : NO.getLast? = some (p.data.length + D.sum) := by
    rw [hNO, getLast?_append_scanAdd D p.offset _ (by rw [hl]; rfl), htop]
  have hndlen : ND.length = p.data.length + D.sum := by
    rw [hND]
    simp only [List.length_append, List.length_map, List.length_range]
    omega
  have hguard : (NO.getLast?.getD 0 == ND.length) = true := by
    rw [hback, hndlen]
    simp
  rw [if_pos hguard]
  refine ⟨_, rfl, ?_⟩
  apply wfPage_iff.mpr
  refine ⟨?_, ?_, ?_⟩
  · show NO.head? = some 0
    rw [hNO, List.head?_append, hh]
    rfl
  · show List.Chain' (· ≤ ·) NO
    rw [hNO]
    exact chain'_append_scanAdd D p.offset _ hc (by rw [hl]; rfl)
  · show NO.getLast? = some ND.length
    rw [hback, hndlen]

end SparsePage

namespace SparsePage

theorem wfPage_mk_rows (L : List (List Entry)) (b : Nat) :
    wfPage ⟨sumsFrom 0 (L.map List.length), L.flatten, b⟩ = true := by
  apply wfPage_iff.mpr
  refine ⟨?_, ?_, ?_⟩
  · rw [sumsFrom_eq_cons_scanAdd]
    rfl
  · rw [sumsFrom_eq_cons_scanAdd]
    exact chain'_cons_scanAdd _ _
  · rw [sumsFrom_eq_cons_scanAdd, getLast?_cons_scanAdd]
    simp [List.length_flatten]

theorem wf_getTranspose (p : SparsePage) (n : Nat) :
    wfPage (p.getTranspose n) = true := by
  simp only [getTranspose]
  exact wfPage_mk_rows _ _

theorem cscLens_eq {self other : SparsePage}
    (hlen : self.offset.length = other.offset.length)
    (hcs : List.Chain' (· ≤ ·) self.offset)
    (hls : self.offset.getLast? = some self.data.length)
    (hco : List.Chain' (· ≤ ·) other.offset)
    (hlo : other.offset.getLast? = some other.data.length) :
    cscLens self other
      = ((List.range (other.offset.length - 1)).map
          (fun i => self.rowAt i ++ other.rowAt i)).map List.length := by
  rw [cscLens, List.map_map]
  apply List.map_congr_left
  intro i hi
  rw [List.mem_range] at hi
  have h1 : (self.rowAt i).length
      = self.offset.getD (i + 1) 0 - self.offset.getD i 0 :=
    rowAt_length self hcs hls i (by omega)
  have h2 : (other.rowAt i).length
      = other.offset.getD (i + 1) 0 - other.offset.getD i 0 :=
    rowAt_length other hco hlo i (by omega)
  simp [Function.comp, h1, h2]

theorem mergeCSC_rows {self other : SparsePage}
    (hlen : self.offset.length = other.offset.length)
    (hs : wfPage self = true) (ho : wfPage other = true) :
    mergeCSC self other
      = ⟨sumsFrom 0 (((List.range (other.offset.length - 1)).map
            (fun i => self.rowAt i ++ other.rowAt i)).map List.length),
         ((List.range (other.offset.length - 1)).map
            (fun i => self.rowAt i ++ other.rowAt i)).flatten,
         self.base_rowid⟩ := by
  rcases wfPage_iff.mp hs with ⟨hhs, hcs, hls⟩
  rcases wfPage_iff.mp ho with ⟨hho, hco, hlo⟩
  have hseg : (((List.range (other.offset.length - 1)).map
        (fun i => self.rowAt i ++ other.rowAt i)).flatten).length
      = self.data.length + other.data.length := by
    rw [List.length_flatten, ← cscLens_eq hlen hcs hls hco hlo, cscLens,
      sum_map_add_split]
    have e1 : ((List.range (other.offset.length - 1)).map
        (fun i => self.offset.getD (i + 1) 0 - self.offset.getD i 0)).sum
        = self.data.length := by
      rw [← hlen]
      exact offsetDiffsSum hhs hcs hls
    have e2 : ((List.range (other.offset.length - 1)).map
        (fun i => other.offset.getD (i + 1) 0 - other.offset.getD i 0)).sum
        = other.data.length := offsetDiffsSum hho hco hlo
    rw [e1, e2]
  simp only [mergeCSC]
  rw [cscLens_eq hlen hcs hls hco hlo, ← hseg]
  simp [List.take_length]

theorem rowsOf_mergeCSC {self other : SparsePage}
    (hlen : self.offset.length = other.offset.length)
    (hs : wfPage self = true) (ho : wfPage other = true) :
    rowsOf (mergeCSC self other)
      = List.zipWith (· ++ ·) (rowsOf self) (rowsOf other) := by
  rw [mergeCSC_rows hlen hs ho, rowsOf_mk]
  rw [rowsOf, rowsOf, size, size, hlen, List.zipWith_map, List.zipWith_same]

theorem wf_pushCSC {self other r : SparsePage}
    (hs : wfPage self = true) (ho : wfPage other = true)
    (h : pushCSC self other = some r) : wfPage r = true := by
  rw [pushCSC] at h
  split at h
  · exact (Option.some_inj.mp h) ▸ hs
  · split at h
    · split at h
      · have hlen : self.offset.length = other.offset.length := by
          rename_i hcond
          exact Nat.eq_of_beq_eq_true (by simpa using hcond)
        rw [← Option.some_inj.mp h, mergeCSC_rows hlen hs ho]
        exact wfPage_mk_rows _ _
      · exact absurd h (by simp)
    · rw [← Option.some_inj.mp h]
      apply wfPage_iff.mpr
      exact wfPage_iff.mp ho

end SparsePage

/-! Helper lemmas for the distributed column-count validation. -/

theorem getD_mem_of_lt {l : List Nat} {n : Nat} (h : n < l.length) :
    l.getD n 0 ∈ l := by
  rw [List.getD_eq_getElem?_getD, List.getElem?_eq_getElem h]
  simp

theorem firstBad_none_iff (m : Nat) (l : List Nat) :
    firstBad m l = none ↔ ∀ v ∈ l, v = 0 ∨ v = m := by
  induction l with
  | nil => simp [firstBad]
  | cons a t ih =>
    rw [firstBad]
    have hb : (a != 0 && a != m) = true ↔ (a ≠ 0 ∧ a ≠ m) := by simp
    by_cases h1 : a ≠ 0 ∧ a ≠ m
    · rw [if_pos (hb.mpr h1)]
      simp [h1.1, h1.2]
    · rw [if_neg (fun hh => h1 (hb.mp hh))]
      rw [Option.map_eq_none', ih]
      have ha : a = 0 ∨ a = m := by tauto
      simp [ha]

theorem firstBad_some_spec (m : Nat) (l : List Nat) :
    ∀ i v, firstBad m l = some (i, v) →
      i < l.length ∧ l.getD i 0 = v ∧ v ≠ 0 ∧ v ≠ m := by
  induction l with
  | nil => intro i v h; simp [firstBad] at h
  | cons a t ih =>
    intro i v h
    rw [firstBad] at h
    by_cases hb : (a != 0 && a != m) = true
    · rw [if_pos hb] at h
      simp only [Option.some_inj, Prod.mk.injEq] at h
      obtain ⟨hi, hv⟩ := h
      subst hi
      subst hv
      simp only [Bool.and_eq_true, bne_iff_ne] at hb
      exact ⟨by simp, by simp, hb.1, hb.2⟩
    · rw [if_neg hb] at h
      rw [Option.map_eq_some'] at h
      obtain ⟨⟨j, w⟩, hj, hpr⟩ := h
      simp only [Prod.mk.injEq] at hpr
      obtain ⟨hi, hv⟩ := hpr
      subst hi
      subst hv
      obtain ⟨h1, h2, h3, h4⟩ := ih j w hj
      exact ⟨by simp; omega, by simpa using h2, h3, h4⟩

/-! Claim theorems. -/

/-- C10: For every page `self` and every page `other` whose data array is
empty, `PushCSC(self, other)` leaves `self` completely unchanged (data,
offset and `base_rowid` all unmodified), regardless of the offset-array
lengths and of whether `self` itself is empty: the function returns
before touching anything (data.cc:440-442). -/
theorem pushCSC_empty_other_noop (self other : SparsePage)
    (h : other.data = []) : SparsePage.pushCSC self other = some self := by
  rw [SparsePage.pushCSC, h]
  rfl

/-- C10 witness: `other` has empty data but an offset array of a
different length than non-empty `self`; `self` is returned untouched. -/
theorem pushCSC_empty_other_noop_witness :
    SparsePage.pushCSC ⟨[0, 1], [⟨1, 5⟩], 4⟩ ⟨[0, 0, 0], [], 0⟩
      = some ⟨[0, 1], [⟨1, 5⟩], 4⟩ :=
  pushCSC_empty_other_noop _ _ rfl

/-- C1 counterexample: the claim asserts that a column-count mismatch on
a non-empty `self` is always a fatal consistency error, but when the
batch has no entries `PushCSC` returns before the `CHECK_EQ`, so a
non-empty `self` merged with an offset-length-mismatched empty batch
raises no error and is returned unchanged. -/
theorem pushCSC_mismatch_no_error_counterexample :
    SparsePage.pushCSC ⟨[0, 2], [⟨0, 3⟩, ⟨2, 7⟩], 0⟩ ⟨[0, 0, 0, 0], [], 0⟩
      = some ⟨[0, 2], [⟨0, 3⟩, ⟨2, 7⟩], 0⟩
    ∧ (SparsePage.mk [0, 2] [⟨0, 3⟩, ⟨2, 7⟩] 0).data ≠ []
    ∧ (SparsePage.mk [0, 2] [⟨0, 3⟩, ⟨2, 7⟩] 0).offset.length
        ≠ (SparsePage.mk [0, 0, 0, 0] ([] : List Entry) 0).offset.length := by
  refine ⟨rfl, by simp, by simp⟩

/-- C1 (amended): `PushCSC(self, other)` behaves as follows.  If `other`
has no entries, `self` is returned unchanged (even on an offset-length
mismatch).  Otherwise, if `self` is empty, `self`'s data and offset
arrays become copies of `other`'s (`base_rowid` is left unchanged).
Otherwise the offset arrays must have identical length — a mismatch is a
fatal consistency error, never silently padded — and the merged page
has, for each column `i`, self's column-`i` entries followed by other's
column-`i` entries. -/
theorem pushCSC_spec (self other : SparsePage) :
    (other.data = [] → SparsePage.pushCSC self other = some self)
    ∧ (other.data ≠ [] → self.data = [] →
        SparsePage.pushCSC self other
          = some { self with data := other.data, offset := other.offset })
    ∧ (other.data ≠ [] → self.data ≠ [] →
        self.offset.length ≠ other.offset.length →
        SparsePage.pushCSC self other = none)
    ∧ (other.data ≠ [] → self.data ≠ [] →
        self.offset.length = other.offset.length →
        SparsePage.wfPage self = true → SparsePage.wfPage other = true →
        ∃ r, SparsePage.pushCSC self other = some r
          ∧ SparsePage.rowsOf r
              = List.zipWith (· ++ ·) (SparsePage.rowsOf self)
                  (SparsePage.rowsOf other)
          ∧ r.offset.length = self.offset.length
          ∧ r.base_rowid = self.base_rowid) := by
  refine ⟨?_, ?_, ?_, ?_⟩
  · intro h
    rw [SparsePage.pushCSC, h]
    rfl
  · intro h1 h2
    simp [SparsePage.pushCSC, h1, h2]
  · intro h1 h2 h3
    simp [SparsePage.pushCSC, h1, h2, h3]
  · intro h1 h2 hlen hs ho
    refine ⟨SparsePage.mergeCSC self other, ?_, ?_, ?_, ?_⟩
    · simp [SparsePage.pushCSC, h1, h2, hlen]
    · exact SparsePage.rowsOf_mergeCSC hlen hs ho
    · rw [SparsePage.mergeCSC_rows hlen hs ho]
      show (sumsFrom 0 _).length = _
      rw [sumsFrom_eq_cons_scanAdd]
      simp only [List.length_cons, length_scanAdd, List.length_map,
        List.length_range]
      have : other.offset ≠ [] := by
        intro hnil
        have := (SparsePage.wfPage_iff.mp ho).1
        rw [hnil] at this
        simp at this
      have : 1 ≤ other.offset.length := List.length_pos.mpr this
      omega
    · rw [SparsePage.mergeCSC_rows hlen hs ho]

/-- C1 witness: concrete merge of two non-empty two-column CSC pages
with matching offset lengths. -/
theorem pushCSC_spec_witness :
    ∃ r, SparsePage.pushCSC ⟨[0, 1, 2], [⟨0, 10⟩, ⟨1, 20⟩], 3⟩
        ⟨[0, 2, 3], [⟨2, 30⟩, ⟨3, 40⟩, ⟨4, 50⟩], 0⟩ = some r
      ∧ SparsePage.rowsOf r
          = List.zipWith (· ++ ·)
              (SparsePage.rowsOf ⟨[0, 1, 2], [⟨0, 10⟩, ⟨1, 20⟩], 3⟩)
              (SparsePage.rowsOf ⟨[0, 2, 3], [⟨2, 30⟩, ⟨3, 40⟩, ⟨4, 50⟩], 0⟩)
      ∧ r.offset.length
          = (SparsePage.mk [0, 1, 2] [⟨0, 10⟩, ⟨1, 20⟩] 3).offset.length
      ∧ r.base_rowid = (SparsePage.mk [0, 1, 2] [⟨0, 10⟩, ⟨1, 20⟩] 3).base_rowid :=
  (pushCSC_spec ⟨[0, 1, 2], [⟨0, 10⟩, ⟨1, 20⟩], 3⟩
      ⟨[0, 2, 3], [⟨2, 30⟩, ⟨3, 40⟩, ⟨4, 50⟩], 0⟩).2.2.2
    (by decide) (by decide) (by decide) (by decide) (by decide)

/-- C5: For pages `P` and `Q` (satisfying the page invariant) with
`Q.offset[0] == 0`, `Push(P, Q)` yields a concatenation whose offset
array has length `P.offset.size() + Q.offset.size() - 1`, whose data
array has length `P.data.size() + Q.data.size()`, and whose appended
offsets equal `priorTotal + Q.offset[i+1]` where `priorTotal` is `P`'s
entry count. -/
theorem push_spec (P Q : SparsePage)
    (hP : SparsePage.wfPage P = true) (hQ : SparsePage.wfPage Q = true)
    (h0 : Q.offset.getD 0 0 = 0) :
    (P.push Q).offset.length = P.offset.length + Q.offset.length - 1
    ∧ (P.push Q).data.length = P.data.length + Q.data.length
    ∧ ∀ i, i < Q.offset.length - 1 →
        (P.push Q).offset.getD (P.offset.length + i) 0
          = P.data.length + Q.offset.getD (i + 1) 0 := by
  rcases SparsePage.wfPage_iff.mp hP with ⟨_, _, hl⟩
  rcases SparsePage.wfPage_iff.mp hQ with ⟨hhQ, _, _⟩
  have hQne : Q.offset ≠ [] := by
    intro h
    rw [h] at hhQ
    simp at hhQ
  have hQpos : 1 ≤ Q.offset.length := List.length_pos.mpr hQne
  rw [SparsePage.push_offset_eq Q hl, SparsePage.push_data_eq Q hl]
  refine ⟨?_, ?_, ?_⟩
  · simp only [List.length_append, List.length_map, List.length_drop]
    omega
  · simp
  · intro i hi
    rw [List.getD_eq_getElem?_getD,
      List.getElem?_append_right (Nat.le_add_right _ _), Nat.add_sub_cancel_left,
      List.getElem?_map, List.getElem?_drop]
    rw [List.getElem?_eq_getElem (by omega)]
    rw [List.getD_eq_getElem?_getD, List.getElem?_eq_getElem (by omega)]
    simp only [Nat.add_comm 1 i, Option.map_some', Option.getD_some]
    congr 1
    simp [List.getD_eq_getElem?_getD,
      List.getElem?_eq_getElem (by omega : i + 1 < Q.offset.length)]

/-- C5 witness: pushing a one-row page onto a two-row page. -/
theorem push_spec_witness :
    ((SparsePage.push ⟨[0, 1, 3], [⟨0, 1⟩, ⟨1, 2⟩, ⟨2, 3⟩], 0⟩
        ⟨[0, 2], [⟨0, 4⟩, ⟨3, 5⟩], 0⟩).offset.length = 3 + 2 - 1)
    ∧ ((SparsePage.push ⟨[0, 1, 3], [⟨0, 1⟩, ⟨1, 2⟩, ⟨2, 3⟩], 0⟩
        ⟨[0, 2], [⟨0, 4⟩, ⟨3, 5⟩], 0⟩).data.length = 3 + 2)
    ∧ ∀ i, i < ([0, 2] : List Nat).length - 1 →
        (SparsePage.push ⟨[0, 1, 3], [⟨0, 1⟩, ⟨1, 2⟩, ⟨2, 3⟩], 0⟩
          ⟨[0, 2], [⟨0, 4⟩, ⟨3, 5⟩], 0⟩).offset.getD (3 + i) 0
          = 3 + ([0, 2] : List Nat).getD (i + 1) 0 :=
  push_spec ⟨[0, 1, 3], [⟨0, 1⟩, ⟨1, 2⟩, ⟨2, 3⟩], 0⟩ ⟨[0, 2], [⟨0, 4⟩, ⟨3, 5⟩], 0⟩
    (by decide) (by decide) (by decide)

/-- C7: Every SparsePage operation — `Push` of a page, `Push` of a row
block, `PushCSC`, `GetTranspose` — preserves the page invariant
`offset[0] = 0`, `offset` monotonically nondecreasing, and
`offset.back() == data.size()` (for the row-block push the trailing
`CHECK_EQ` also succeeds, hence the `some` result; `GetTranspose`
establishes the invariant unconditionally). -/
theorem sparsePage_ops_preserve_invariant :
    (∀ p q : SparsePage, SparsePage.wfPage p = true →
      SparsePage.wfPage q = true → SparsePage.wfPage (p.push q) = true)
    ∧ (∀ (p : SparsePage) (rb : SparsePage.RowBlock),
        SparsePage.wfPage p = true → rb.wf = true →
        ∃ r, SparsePage.pushRowBlock p rb = some r
          ∧ SparsePage.wfPage r = true)
    ∧ (∀ p q r : SparsePage, SparsePage.wfPage p = true →
        SparsePage.wfPage q = true → SparsePage.pushCSC p q = some r →
        SparsePage.wfPage r = true)
    ∧ (∀ (p : SparsePage) (n : Nat),
        SparsePage.wfPage (p.getTranspose n) = true) :=
  ⟨fun _ _ hp hq => SparsePage.wf_push hp hq,
   fun _ _ hp hrb => SparsePage.wf_pushRowBlock hp hrb,
   fun _ _ _ hp hq h => SparsePage.wf_pushCSC hp hq h,
   fun p n => SparsePage.wf_getTranspose p n⟩

/-- C7 witness: the four operations applied to concrete well-formed
pages and a concrete row block. -/
theorem sparsePage_ops_preserve_invariant_witness :
    SparsePage.wfPage
      (SparsePage.push ⟨[0, 1], [⟨0, 3⟩], 0⟩ ⟨[0, 1], [⟨1, 4⟩], 0⟩) = true
    ∧ (∃ r, SparsePage.pushRowBlock ⟨[0, 1], [⟨0, 3⟩], 0⟩
          ⟨1, [0, 1], [2], none⟩ = some r ∧ SparsePage.wfPage r = true)
    ∧ SparsePage.wfPage ⟨[0, 2], [⟨0, 3⟩, ⟨1, 4⟩], 0⟩ = true
    ∧ SparsePage.wfPage
        (SparsePage.getTranspose ⟨[0, 1], [⟨0, 3⟩], 0⟩ 2) = true :=
  ⟨sparsePage_ops_preserve_invariant.1 _ _ (by decide) (by decide),
   sparsePage_ops_preserve_invariant.2.1 ⟨[0, 1], [⟨0, 3⟩], 0⟩
     ⟨1, [0, 1], [2], none⟩ (by decide) (by decide),
   sparsePage_ops_preserve_invariant.2.2.1 ⟨[0, 1], [⟨0, 3⟩], 0⟩
     ⟨[0, 1], [⟨1, 4⟩], 0⟩ ⟨[0, 2], [⟨0, 3⟩, ⟨1, 4⟩], 0⟩
     (by decide) (by decide) (by decide),
   sparsePage_ops_preserve_invariant.2.2.2 ⟨[0, 1], [⟨0, 3⟩], 0⟩ 2⟩

/-- C6: For every page `P`, `nCols` bounding `P`'s column indices, and
`nRows` bounding `P`'s row indices (`base_rowid + Size()`),
`Transpose(Transpose(P, nCols), nRows)` reproduces the same multiset of
(row, column, value) triples as `P`, where each transposed entry records
its row index as `base_rowid + offset_within_page`; order within a
column/row is not guaranteed (the result is a list permutation). -/
theorem transpose_transpose_triples (P : SparsePage) (nCols nRows : Nat)
    (hc : ∀ e ∈ P.data, e.index < nCols)
    (hr : P.base_rowid + P.size ≤ nRows) :
    (SparsePage.triples ((P.getTranspose nCols).getTranspose nRows)).Perm
      (SparsePage.triples P) := by
  have h1 : ∀ e ∈ (P.getTranspose nCols).data, e.index < nRows := fun e he =>
    Nat.lt_of_lt_of_le (SparsePage.mem_getTranspose_data_index_lt he) hr
  have t1 := SparsePage.triples_transpose_perm (P.getTranspose nCols) nRows h1
  have t2 := SparsePage.triples_transpose_perm P nCols hc
  exact t1.trans ((t2.map swap3).trans (List.Perm.of_eq (map_swap3_swap3 _)))

/-- C6 witness: a two-row page with base row id 1, transposed into 2
columns and back into 3 rows. -/
theorem transpose_transpose_triples_witness :
    (∀ e ∈ (SparsePage.mk [0, 2, 3] [⟨0, 5⟩, ⟨1, 7⟩, ⟨0, 9⟩] 1).data,
        e.index < 2)
    ∧ (SparsePage.mk [0, 2, 3] [⟨0, 5⟩, ⟨1, 7⟩, ⟨0, 9⟩] 1).base_rowid
        + (SparsePage.mk [0, 2, 3] [⟨0, 5⟩, ⟨1, 7⟩, ⟨0, 9⟩] 1).size ≤ 3
    ∧ (SparsePage.triples ((SparsePage.getTranspose
          ⟨[0, 2, 3], [⟨0, 5⟩, ⟨1, 7⟩, ⟨0, 9⟩], 1⟩ 2).getTranspose 3)).Perm
        (SparsePage.triples ⟨[0, 2, 3], [⟨0, 5⟩, ⟨1, 7⟩, ⟨0, 9⟩], 1⟩) :=
  ⟨by decide, by decide,
   transpose_transpose_triples ⟨[0, 2, 3], [⟨0, 5⟩, ⟨1, 7⟩, ⟨0, 9⟩], 1⟩ 2 3
     (by decide) (by decide)⟩

/-- C8: For every `MetaInfo`, `SaveBinary` followed by `LoadBinary`
reproduces `num_row_`, `num_col_`, `num_nonzero_` and all four arrays
(labels, group_ptr_, weights_, base_margin_) exactly, the layout being
written in that fixed order — regardless of the prior contents of the
instance being loaded into. -/
theorem saveBinary_loadBinary_roundtrip (m m0 : MetaInfo) :
    MetaInfo.loadBinary m0 (MetaInfo.saveBinary m) = (m, none) := rfl

/-- C9: For every buffer of per-group sizes, `SetInfo("group", ...)`
sets `group_ptr_` to the prefix-sum boundary array of length
`count + 1` with a leading 0; in particular sizes `[3, 5, 2]` yield
`group_ptr_ == [0, 3, 8, 10]`. -/
theorem setInfoGroup_spec (m : MetaInfo) (sizes : List Nat) :
    (MetaInfo.setInfoGroup m sizes).group_ptr_
        = (List.range (sizes.length + 1)).map (fun i => (sizes.take i).sum)
    ∧ (MetaInfo.setInfoGroup m sizes).group_ptr_.length = sizes.length + 1
    ∧ (MetaInfo.setInfoGroup m sizes).group_ptr_.getD 0 0 = 0
    ∧ (MetaInfo.setInfoGroup m [3, 5, 2]).group_ptr_ = [0, 3, 8, 10] := by
  have hmain : (MetaInfo.setInfoGroup m sizes).group_ptr_
      = (List.range (sizes.length + 1)).map (fun i => (sizes.take i).sum) := by
    show 0 :: scanAdd 0 sizes = _
    rw [scanAdd_eq_map, List.range_succ_eq_map, List.map_cons, List.map_map]
    refine List.cons_eq_cons.mpr ⟨by simp, ?_⟩
    apply List.map_congr_left
    intro i _
    simp [Function.comp]
  refine ⟨hmain, ?_, rfl, rfl⟩
  rw [hmain]
  simp

/-- C4 counterexample: the claim says every `LoadBinary` failure leaves
the instance untouched, but the code reads directly into the fields
before each `CHECK`: on a stream holding a valid version record and a
`num_row_` value but truncated right after, loading fails (short read)
with `num_row_` already overwritten (42 instead of the prior 5). -/
theorem loadBinary_field_overwrite_counterexample :
    ((MetaInfo.loadBinary ⟨5, 0, 0, [], [], [], []⟩
        [BinItem.ver 1 0 0, BinItem.natVal 42]).2).isSome = true
    ∧ (MetaInfo.loadBinary ⟨5, 0, 0, [], [], [], []⟩
        [BinItem.ver 1 0 0, BinItem.natVal 42]).1
        ≠ (⟨5, 0, 0, [], [], [], []⟩ : MetaInfo) := by
  refine ⟨rfl, by decide⟩

/-- C4 (amended): `LoadBinary` fails (with a format error) exactly when
the stream is not a well-formed version-1 layout — a differing major
version or any short read; on a major-version mismatch (or an unreadable
version record) the instance is untouched.  On a short read after
earlier successful reads, however, the fields already read keep the
loaded values, so the instance can be left partially populated. -/
theorem loadBinary_amended (m : MetaInfo) (s : List BinItem) :
    ((MetaInfo.loadBinary m s).2 = none ↔ MetaInfo.goodStream s = true)
    ∧ (∀ maj mi pa rest, s = BinItem.ver maj mi pa :: rest → maj ≠ 1 →
        MetaInfo.loadBinary m s = (m, some (LoadErr.badMajor maj)))
    ∧ (∀ i rest, s = i :: rest → (∀ maj mi pa, i ≠ BinItem.ver maj mi pa) →
        MetaInfo.loadBinary m s = (m, some LoadErr.shortRead)) := by
  refine ⟨?_, ?_, ?_⟩
  · rcases s with _ | ⟨i1, r1⟩
    · simp [MetaInfo.loadBinary, MetaInfo.goodStream]
    cases i1 with
    | natVal v => simp [MetaInfo.loadBinary, MetaInfo.goodStream]
    | natArr l => simp [MetaInfo.loadBinary, MetaInfo.goodStream]
    | fltArr l => simp [MetaInfo.loadBinary, MetaInfo.goodStream]
    | ver maj mi pa =>
      by_cases hm : maj = 1
      · subst hm
        rcases r1 with _ | ⟨i2, r2⟩
        · simp [MetaInfo.loadBinary, MetaInfo.goodStream]
        cases i2 with
        | ver a b c => simp [MetaInfo.loadBinary, MetaInfo.goodStream]
        | natArr l => simp [MetaInfo.loadBinary, MetaInfo.goodStream]
        | fltArr l => simp [MetaInfo.loadBinary, MetaInfo.goodStream]
        | natVal nr =>
          rcases r2 with _ | ⟨i3, r3⟩
          · simp [MetaInfo.loadBinary, MetaInfo.goodStream]
          cases i3 with
          | ver a b c => simp [MetaInfo.loadBinary, MetaInfo.goodStream]
          | natArr l => simp [MetaInfo.loadBinary, MetaInfo.goodStream]
          | fltArr l => simp [MetaInfo.loadBinary, MetaInfo.goodStream]
          | natVal nc =>
            rcases r3 with _ | ⟨i4, r4⟩
            · simp [MetaInfo.loadBinary, MetaInfo.goodStream]
            cases i4 with
            | ver a b c => simp [MetaInfo.loadBinary, MetaInfo.goodStream]
            | natArr l => simp [MetaInfo.loadBinary, MetaInfo.goodStream]
            | fltArr l => simp [MetaInfo.loadBinary, MetaInfo.goodStream]
            | natVal nnz =>
              rcases r4 with _ | ⟨i5, r5⟩
              · simp [MetaInfo.loadBinary, MetaInfo.goodStream]
              cases i5 with
              | ver a b c => simp [MetaInfo.loadBinary, MetaInfo.goodStream]
              | natVal l => simp [MetaInfo.loadBinary, MetaInfo.goodStream]
              | natArr l => simp [MetaInfo.loadBinary, MetaInfo.goodStream]
              | fltArr lab =>
                rcases r5 with _ | ⟨i6, r6⟩
                · simp [MetaInfo.loadBinary, MetaInfo.goodStream]
                cases i6 with
                | ver a b c => simp [MetaInfo.loadBinary, MetaInfo.goodStream]
                | natVal l => simp [MetaInfo.loadBinary, MetaInfo.goodStream]
                | fltArr l => simp [MetaInfo.loadBinary, MetaInfo.goodStream]
                | natArr gp =>
                  rcases r6 with _ | ⟨i7, r7⟩
                  · simp [MetaInfo.loadBinary, MetaInfo.goodStream]
                  cases i7 with
                  | ver a b c => simp [MetaInfo.loadBinary, MetaInfo.goodStream]
                  | natVal l => simp [MetaInfo.loadBinary, MetaInfo.goodStream]
                  | natArr l => simp [MetaInfo.loadBinary, MetaInfo.goodStream]
                  | fltArr w =>
                    rcases r7 with _ | ⟨i8, r8⟩
                    · simp [MetaInfo.loadBinary, MetaInfo.goodStream]
                    cases i8 with
                    | ver a b c => simp [MetaInfo.loadBinary, MetaInfo.goodStream]
                    | natVal l => simp [MetaInfo.loadBinary, MetaInfo.goodStream]
                    | natArr l => simp [MetaInfo.loadBinary, MetaInfo.goodStream]
                    | fltArr bm =>
                      simp [MetaInfo.loadBinary, MetaInfo.goodStream]
      · simp [MetaInfo.loadBinary, MetaInfo.goodStream, hm]
  · intro maj mi pa rest hs hmaj
    subst hs
    simp [MetaInfo.loadBinary, hmaj]
  · intro i rest hs hnv
    subst hs
    cases i with
    | ver a b c => exact absurd rfl (hnv a b c)
    | natVal v => rfl
    | natArr l => rfl
    | fltArr l => rfl

/-- C4 witness: a version-2 stream is rejected with the instance
untouched, and a well-formed saved stream loads without error. -/
theorem loadBinary_amended_witness :
    MetaInfo.loadBinary ⟨0, 0, 0, [], [], [], []⟩ [BinItem.ver 2 0 0]
      = (⟨0, 0, 0, [], [], [], []⟩, some (LoadErr.badMajor 2))
    ∧ (MetaInfo.loadBinary ⟨0, 0, 0, [], [], [], []⟩
        (MetaInfo.saveBinary ⟨1, 2, 3, [4], [5], [6], [7]⟩)).2 = none :=
  ⟨(loadBinary_amended ⟨0, 0, 0, [], [], [], []⟩ [BinItem.ver 2 0 0]).2.1
      2 0 0 [] rfl (by decide),
   (loadBinary_amended ⟨0, 0, 0, [], [], [], []⟩
      (MetaInfo.saveBinary ⟨1, 2, 3, [4], [5], [6], [7]⟩)).1.mpr (by decide)⟩

/-- C2: In a distributed `Create` with empty cachePrefix, when the
workers report column counts `[0, 7, 7]` (the rank-0 worker being empty,
with zero rows), every worker resolves its column count to 7 and no
error is raised.  In general an empty worker (zero local rows and
columns) silently adopts the global maximum, and when validation passes
the resolved column count is identical for every worker whose zero
report implies zero rows. -/
theorem createNumCol_adopts_max :
    (∀ r1 r2 : Nat, createNumCol [0, 7, 7] 0 0 = Except.ok 7
      ∧ createNumCol [0, 7, 7] 1 r1 = Except.ok 7
      ∧ createNumCol [0, 7, 7] 2 r2 = Except.ok 7)
    ∧ (∀ (reports : List Nat) (rank numRow : Nat),
        reports.getD rank 0 = 0 → numRow = 0 →
        (∀ v ∈ reports, v = 0 ∨ v = listMax reports) →
        createNumCol reports rank numRow = Except.ok (listMax reports))
    ∧ (∀ (reports : List Nat) (r1 n1 r2 n2 c1 c2 : Nat),
        r1 < reports.length → r2 < reports.length →
        (reports.getD r1 0 = 0 → n1 = 0) → (reports.getD r2 0 = 0 → n2 = 0) →
        createNumCol reports r1 n1 = Except.ok c1 →
        createNumCol reports r2 n2 = Except.ok c2 → c1 = c2) := by
  have key : ∀ (reports : List Nat) (rank numRow c : Nat),
      rank < reports.length → (reports.getD rank 0 = 0 → numRow = 0) →
      createNumCol reports rank numRow = Except.ok c →
      c = listMax reports := by
    intro reports rank numRow c hrk hz hcc
    simp only [createNumCol] at hcc
    cases hfb : firstBad (listMax reports) reports with
    | some pr =>
      rw [hfb] at hcc
      cases pr
      simp at hcc
    | none =>
      rw [hfb] at hcc
      simp only [Except.ok.injEq] at hcc
      have hall := (firstBad_none_iff _ _).mp hfb
      by_cases hown : reports.getD rank 0 = 0
      · have hnr : numRow = 0 := hz hown
        rw [if_pos (by simp [← List.getD_eq_getElem?_getD, hown, hnr])] at hcc
        exact hcc.symm
      · rcases hall _ (getD_mem_of_lt hrk) with h | h
        · exact absurd h hown
        · rw [if_neg (by simp [← List.getD_eq_getElem?_getD, hown])] at hcc
          rw [← hcc]
          exact h
  refine ⟨?_, ?_, ?_⟩
  · intro r1 r2
    refine ⟨rfl, ?_, ?_⟩
    · simp [createNumCol, listMax, firstBad]
    · simp [createNumCol, listMax, firstBad]
  · intro reports rank numRow h0 hnr hall
    have hfb : firstBad (listMax reports) reports = none :=
      (firstBad_none_iff _ _).mpr hall
    simp only [createNumCol, hfb]
    rw [if_pos (by simp [← List.getD_eq_getElem?_getD, h0, hnr])]
  · intro reports r1 n1 r2 n2 c1 c2 hr1 hr2 hz1 hz2 hc1 hc2
    rw [key reports r1 n1 c1 hr1 hz1 hc1, key reports r2 n2 c2 hr2 hz2 hc2]

/-- C2 witness: the `[0, 7, 7]` scenario at rank 0, the general adoption
rule on `[5, 5, 0]` at rank 2, and identical resolution on `[4, 0]`. -/
theorem createNumCol_adopts_max_witness :
    createNumCol [0, 7, 7] 0 0 = Except.ok 7
    ∧ createNumCol [5, 5, 0] 2 0 = Except.ok (listMax [5, 5, 0])
    ∧ (4 : Nat) = 4 :=
  ⟨(createNumCol_adopts_max.1 0 0).1,
   createNumCol_adopts_max.2.1 [5, 5, 0] 2 0 (by decide) rfl (by decide),
   createNumCol_adopts_max.2.2 [4, 0] 0 1 1 0 4 4 (by decide) (by decide)
     (by decide) (by decide) rfl rfl⟩

/-- C3: In a distributed `Create` with empty cachePrefix, any worker
whose nonzero reported column count disagrees with the maximum reported
column count causes a fatal ConsistencyError whose message names a
disagreeing rank (the first one, together with the rank holding the
maximum and both counts); in the `[7, 9, 7]` scenario every worker
raises the error naming rank 0 (count 7) against rank 1 (count 9). -/
theorem createNumCol_mismatch_error :
    (createNumCol [7, 9, 7] 0 0 = Except.error ⟨0, 1, 7, 9⟩
      ∧ createNumCol [7, 9, 7] 1 0 = Except.error ⟨0, 1, 7, 9⟩
      ∧ createNumCol [7, 9, 7] 2 0 = Except.error ⟨0, 1, 7, 9⟩)
    ∧ (∀ (reports : List Nat) (rank numRow j : Nat),
        j < reports.length → reports.getD j 0 ≠ 0 →
        reports.getD j 0 ≠ listMax reports →
        ∃ e, createNumCol reports rank numRow = Except.error e
          ∧ reports.getD e.rank 0 = e.cols ∧ e.cols ≠ 0
          ∧ e.cols ≠ listMax reports ∧ e.maxCols = listMax reports) := by
  refine ⟨⟨rfl, rfl, rfl⟩, ?_⟩
  intro reports rank numRow j hj hnz hnm
  cases hfb : firstBad (listMax reports) reports with
  | none =>
    exfalso
    have hall := (firstBad_none_iff _ _).mp hfb
    rcases hall _ (getD_mem_of_lt hj) with h | h
    · exact hnz h
    · exact hnm h
  | some pr =>
    obtain ⟨i, v⟩ := pr
    obtain ⟨hlt, hgd, hv0, hvm⟩ := firstBad_some_spec _ _ i v hfb
    refine ⟨⟨i, reports.findIdx (fun x => x == listMax reports), v,
      listMax reports⟩, ?_, hgd, hv0, hvm, rfl⟩
    simp [createNumCol, hfb]

/-- C3 witness: the `[7, 9, 7]` scenario, and the general statement on
reports `[3, 5]`, where rank 0's nonzero count 3 disagrees with the
maximum 5. -/
theorem createNumCol_mismatch_error_witness :
    createNumCol [7, 9, 7] 0 0 = Except.error ⟨0, 1, 7, 9⟩
    ∧ ∃ e, createNumCol [3, 5] 0 0 = Except.error e
        ∧ ([3, 5] : List Nat).getD e.rank 0 = e.cols ∧ e.cols ≠ 0
        ∧ e.cols ≠ listMax [3, 5] ∧ e.maxCols = listMax [3, 5] :=
  ⟨createNumCol_mismatch_error.1.1,
   createNumCol_mismatch_error.2 [3, 5] 0 0 0 (by decide) (by decide)
     (by decide)⟩
